import Mathlib

/-!
Verification of the wishlist product-metadata pipeline
(`src/lib/search.ts`, `src/lib/metadata.ts`, `src/lib/currency.ts`).

The TypeScript sources are shallowly embedded: pure string/number routines
become Lean functions over `String` / `List Char` / `ℚ`; JavaScript platform
primitives (`parseFloat`, `String.prototype.match` with a regex, `new URL`,
`fetch`, `localStorage`) are modelled either by a faithful Lean function
(`parseFloat` on the restricted digit/dot alphabet produced by the code) or by
an explicit input parameter holding the primitive's outcome, as documented at
each definition.  JavaScript numbers are modelled by `ℚ`; `NaN` (the only
non-finite value these routines can produce, via a failed `parseFloat`) is
modelled by `Option.none`.
-/

namespace Wishlist

/-! ## JavaScript string primitives -/

/-- `Char` lower-casing as performed by `String.prototype.toLowerCase` on the
characters occurring in this code base (ASCII letters; other characters,
including the currency symbols, are left unchanged). -/
def charToLower (c : Char) : Char :=
  if 'A' ≤ c && c ≤ 'Z' then Char.ofNat (c.toNat + 32) else c

/-- `String.prototype.toLowerCase`. -/
def toLowerS (s : String) : String :=
  ⟨s.data.map charToLower⟩

/-- List-of-characters prefix test (helper for the substring test below). -/
def isPrefixL : List Char → List Char → Bool
  | [], _ => true
  | _ :: _, [] => false
  | p :: ps, x :: xs => p == x && isPrefixL ps xs

/-- Substring occurrence over character lists. -/
def containsL (pat : List Char) : List Char → Bool
  | [] => isPrefixL pat []
  | x :: xs => isPrefixL pat (x :: xs) || containsL pat xs

/-- `String.prototype.includes`: `containsSub s pat` holds when `pat` occurs
as a contiguous substring of `s`. -/
def containsSub (s pat : String) : Bool :=
  containsL pat.data s.data

/-- `String.prototype.lastIndexOf` for a single character: the index of the
last occurrence, `-1` if there is none (JavaScript's convention). -/
def lastIndexOfD : List Char → Char → Int
  | [], _ => -1
  | x :: xs, c =>
    let r := lastIndexOfD xs c
    if r = -1 then (if x = c then 0 else -1) else r + 1

/-- `String.prototype.replace` with a single-character pattern and no global
flag: replaces only the first occurrence. -/
def replaceFirstChar : List Char → Char → Char → List Char
  | [], _, _ => []
  | x :: xs, c, d => if x = c then d :: xs else x :: replaceFirstChar xs c d

/-- `String.prototype.replace` with a global single-character pattern and an
empty replacement: removes every occurrence. -/
def removeAllChar (l : List Char) (c : Char) : List Char :=
  l.filter (fun x => x ≠ c)

/-- `l.any (· = c)`, the character-membership test behind
`String.prototype.includes` with a single-character pattern. -/
def hasChar (l : List Char) (c : Char) : Bool :=
  l.any (fun x => x = c)

/-! ## JavaScript `parseFloat`, restricted to the alphabet reachable here

After the code's normalisation the parsed string contains only decimal digits,
`'.'` and `','`.  On that alphabet, `parseFloat` reads an optional integer
part, then an optional `'.'` followed by an optional fraction part, stopping
at the first character that fits neither (in particular at any `','`), and
yields `NaN` (modelled as `none`) when not a single digit was consumed. -/

/-- Value of a digit string (most significant first). -/
def digitsVal (l : List Char) : ℕ :=
  l.foldl (fun a c => 10 * a + (c.toNat - 48)) 0

/-- The fraction part read by `parseFloat` after the integer part: a leading
`'.'` followed by digits, otherwise nothing. -/
def fracDigits : List Char → List Char
  | '.' :: r => r.takeWhile Char.isDigit
  | _ => []

/-- The integer-part digits read by `parseFloat`. -/
def intDigits (l : List Char) : List Char :=
  l.takeWhile Char.isDigit

/-- The fraction digits read by `parseFloat` from the whole string. -/
def fracPart (l : List Char) : List Char :=
  fracDigits (l.drop (intDigits l).length)

/-- `parseFloat` on digit/dot/comma strings; `none` models `NaN` (no digit
consumed). -/
def parseFloatQ (l : List Char) : Option ℚ :=
  if (intDigits l).isEmpty && (fracPart l).isEmpty then none
  else some ((digitsVal (intDigits l) : ℚ) +
    (digitsVal (fracPart l) : ℚ) / (10 : ℚ) ^ (fracPart l).length)

/-! ## Price Normalizer (`parsePriceAmount`, search.ts lines 83-102 and
metadata.ts lines 591-619 — the two copies are logically identical) -/

/-- A character kept by `String(priceStr).replace(/[^\d.,]/g, '')`. -/
def isPriceChar (c : Char) : Bool :=
  c.isDigit || c = '.' || c = ','

/-- `String(priceStr).replace(/[^\d.,]/g, '')`. -/
def cleanPrice (s : String) : List Char :=
  s.data.filter isPriceChar

/-- Helper for the regex test below, reading the reversed string. -/
def endsCommaTwoDigitsRev : List Char → Bool
  | d1 :: d2 :: c :: _ => d1.isDigit && d2.isDigit && c = ','
  | _ => false

/-- The test `/,\d{2}$/.test(cleaned)`: the string ends with a comma followed
by exactly two digits. -/
def endsCommaTwoDigits (l : List Char) : Bool :=
  endsCommaTwoDigitsRev l.reverse

/-- `return (!isNaN(parsed) && parsed > 0) ? parsed : 0;` — a `NaN`
(`none`) or non-positive parse collapses to `0`. -/
def collapsePos : Option ℚ → ℚ
  | none => 0
  | some q => if 0 < q then q else 0

/-- The separator normalisation applied to the cleaned string (the `hasComma`
/ `hasDot` branches of the source, with the two `const`s inlined). -/
def normalizePrice (cleaned : List Char) : List Char :=
  if hasChar cleaned ',' && hasChar cleaned '.' then
    if lastIndexOfD cleaned ',' > lastIndexOfD cleaned '.' then
      replaceFirstChar (removeAllChar cleaned '.') ',' '.'
    else
      removeAllChar cleaned ','
  else if hasChar cleaned ',' then
    if endsCommaTwoDigits cleaned then replaceFirstChar cleaned ',' '.'
    else removeAllChar cleaned ','
  else cleaned

/-- `parsePriceAmount` on a string argument. -/
def parsePriceAmount (priceStr : String) : ℚ :=
  if priceStr = "" then 0
  else
    let cleaned := cleanPrice priceStr
    if cleaned.isEmpty then 0
    else collapsePos (parseFloatQ (normalizePrice cleaned))

/-- `parsePriceAmount` on a number argument:
`if (typeof priceStr === 'number') return priceStr > 0 ? priceStr : 0;`. -/
def parsePriceAmountNum (q : ℚ) : ℚ :=
  if 0 < q then q else 0

/-! ## Evaluation lemmas for the price normalizer -/

theorem parsePriceAmount_eq (s : String) :
    parsePriceAmount s =
      if s = "" then 0
      else if (cleanPrice s).isEmpty then 0
      else collapsePos (parseFloatQ (normalizePrice (cleanPrice s))) := rfl

@[simp] theorem digitsVal_nil : digitsVal [] = 0 := rfl

theorem takeWhile_digits_append (a b : List Char) (ha : ∀ c ∈ a, c.isDigit) :
    (a ++ '.' :: b).takeWhile Char.isDigit = a := by
  induction a with
  | nil => simp [List.takeWhile]
  | cons x xs ih =>
    have hx : x.isDigit := ha x (by simp)
    simp only [List.cons_append, List.takeWhile_cons, hx, if_true]
    rw [ih (fun c hc => ha c (by simp [hc]))]

theorem takeWhile_digits_all (a : List Char) (ha : ∀ c ∈ a, c.isDigit) :
    a.takeWhile Char.isDigit = a := by
  induction a with
  | nil => simp
  | cons x xs ih =>
    have hx : x.isDigit := ha x (by simp)
    simp only [List.takeWhile_cons, hx, if_true]
    rw [ih (fun c hc => ha c (by simp [hc]))]

theorem intDigits_append_dot (a b : List Char) (ha : ∀ c ∈ a, c.isDigit) :
    intDigits (a ++ '.' :: b) = a :=
  takeWhile_digits_append a b ha

theorem fracPart_append_dot (a b : List Char)
    (ha : ∀ c ∈ a, c.isDigit) (hb : ∀ c ∈ b, c.isDigit) :
    fracPart (a ++ '.' :: b) = b := by
  unfold fracPart
  rw [intDigits_append_dot a b ha, List.drop_left]
  show fracDigits ('.' :: b) = b
  unfold fracDigits
  exact takeWhile_digits_all b hb

theorem parseFloatQ_digits_dot (a b : List Char)
    (ha : ∀ c ∈ a, c.isDigit) (hb : ∀ c ∈ b, c.isDigit) :
    parseFloatQ (a ++ '.' :: b) =
      if a = [] ∧ b = [] then none
      else some ((digitsVal a : ℚ) + (digitsVal b : ℚ) / (10 : ℚ) ^ b.length) := by
  unfold parseFloatQ
  rw [intDigits_append_dot a b ha, fracPart_append_dot a b ha hb]
  by_cases hae : a = [] <;> by_cases hbe : b = [] <;>
    simp [hae, hbe]

theorem parseFloatQ_digits (a : List Char) (ha : ∀ c ∈ a, c.isDigit) :
    parseFloatQ a = if a = [] then none else some (digitsVal a : ℚ) := by
  have h1 : intDigits a = a := takeWhile_digits_all a ha
  have h2 : fracPart a = [] := by
    unfold fracPart
    rw [h1, List.drop_length]
    rfl
  unfold parseFloatQ
  rw [h1, h2]
  by_cases hae : a = [] <;> simp [hae]

theorem hasChar_of_mem {l : List Char} {c : Char} (h : c ∈ l) : hasChar l c = true := by
  simp only [hasChar, List.any_eq_true]
  exact ⟨c, h, by simp⟩

theorem hasChar_eq_false {l : List Char} {c : Char} (h : ∀ x ∈ l, x ≠ c) :
    hasChar l c = false := by
  simp only [hasChar, List.any_eq_false]
  intro x hx
  simp [h x hx]

theorem lastIndexOfD_of_not_mem {l : List Char} {c : Char} (h : ∀ x ∈ l, x ≠ c) :
    lastIndexOfD l c = -1 := by
  induction l with
  | nil => rfl
  | cons x xs ih =>
    have hx : x ≠ c := h x (by simp)
    have h2 : lastIndexOfD xs c = -1 := ih (fun y hy => h y (by simp [hy]))
    simp [lastIndexOfD, h2, hx]

theorem lastIndexOfD_lt_length (l : List Char) (c : Char) :
    lastIndexOfD l c < (l.length : ℤ) := by
  induction l with
  | nil => simp [lastIndexOfD]
  | cons x xs ih =>
    simp only [lastIndexOfD, List.length_cons]
    split
    · split <;> push_cast <;> omega
    · push_cast
      omega

theorem lastIndexOfD_append_of_not_mem_right (l1 l2 : List Char) (c : Char)
    (h : ∀ x ∈ l2, x ≠ c) :
    lastIndexOfD (l1 ++ l2) c = lastIndexOfD l1 c := by
  induction l1 with
  | nil => simp [lastIndexOfD_of_not_mem h, lastIndexOfD]
  | cons x xs ih =>
    show (let r := lastIndexOfD (xs ++ l2) c;
      if r = -1 then (if x = c then 0 else -1) else r + 1) = _
    rw [ih]
    rfl

theorem lastIndexOfD_append_mid (u v : List Char) (c : Char) (hv : ∀ x ∈ v, x ≠ c) :
    lastIndexOfD (u ++ c :: v) c = (u.length : ℤ) := by
  induction u with
  | nil => simp [lastIndexOfD, lastIndexOfD_of_not_mem hv]
  | cons x xs ih =>
    show (let r := lastIndexOfD (xs ++ c :: v) c;
      if r = -1 then (if x = c then 0 else -1) else r + 1) = _
    rw [ih]
    have hne : ((xs.length : ℤ)) ≠ -1 := by omega
    simp only [hne, if_false, List.length_cons]
    push_cast
    ring

theorem replaceFirstChar_append_of_not_mem (u v : List Char) (c d : Char)
    (hu : ∀ x ∈ u, x ≠ c) :
    replaceFirstChar (u ++ v) c d = u ++ replaceFirstChar v c d := by
  induction u with
  | nil => rfl
  | cons x xs ih =>
    have hx : x ≠ c := hu x (by simp)
    simp only [List.cons_append, replaceFirstChar, hx, if_false, List.cons_inj_right]
    exact ih (fun y hy => hu y (by simp [hy]))

theorem replaceFirstChar_cons_self (v : List Char) (c d : Char) :
    replaceFirstChar (c :: v) c d = d :: v := by
  simp [replaceFirstChar]

theorem removeAllChar_eq_self {l : List Char} {c : Char} (h : ∀ x ∈ l, x ≠ c) :
    removeAllChar l c = l := by
  unfold removeAllChar
  rw [List.filter_eq_self]
  intro x hx
  exact decide_eq_true (h x hx)

theorem removeAllChar_append (l1 l2 : List Char) (c : Char) :
    removeAllChar (l1 ++ l2) c = removeAllChar l1 c ++ removeAllChar l2 c :=
  List.filter_append l1 l2

theorem mem_removeAllChar {l : List Char} {c x : Char} (h : x ∈ removeAllChar l c) : x ∈ l :=
  List.mem_of_mem_filter h

theorem digitsVal_foldl_acc (w : List Char) :
    ∀ acc : ℕ, w.foldl (fun a c => 10 * a + (c.toNat - 48)) acc =
      acc * 10 ^ w.length + w.foldl (fun a c => 10 * a + (c.toNat - 48)) 0 := by
  induction w with
  | nil => intro acc; simp
  | cons c cs ih =>
    intro acc
    rw [List.foldl_cons, List.foldl_cons, ih (10 * acc + (c.toNat - 48)),
      ih (10 * 0 + (c.toNat - 48)), List.length_cons]
    ring

theorem digitsVal_append (u v : List Char) :
    digitsVal (u ++ v) = digitsVal u * 10 ^ v.length + digitsVal v := by
  unfold digitsVal
  rw [List.foldl_append, digitsVal_foldl_acc v]

theorem reverse_append_comma (u v : List Char) :
    (u ++ ',' :: v).reverse = v.reverse ++ ',' :: u.reverse := by
  rw [List.reverse_append, List.reverse_cons, List.append_assoc]
  rfl

theorem endsCommaTwoDigits_two (u : List Char) (a b : Char)
    (ha : a.isDigit) (hb : b.isDigit) :
    endsCommaTwoDigits (u ++ ',' :: [a, b]) = true := by
  unfold endsCommaTwoDigits
  rw [reverse_append_comma]
  show endsCommaTwoDigitsRev (b :: a :: ',' :: u.reverse) = true
  simp [endsCommaTwoDigitsRev, ha, hb]

theorem endsCommaTwoDigitsRev_not_two (w r : List Char)
    (hwd : ∀ x ∈ w, x.isDigit) (hwl : w.length ≠ 2) :
    endsCommaTwoDigitsRev (w ++ ',' :: r) = false := by
  have hcd : (',' : Char).isDigit = false := by decide
  rcases w with _ | ⟨a, _ | ⟨b, _ | ⟨c, t⟩⟩⟩
  · rcases r with _ | ⟨x, _ | ⟨y, r'⟩⟩ <;> simp [endsCommaTwoDigitsRev, hcd]
  · rcases r with _ | ⟨x, r'⟩
    · rfl
    · simp [endsCommaTwoDigitsRev, hcd]
  · exact absurd (by simp : ([a, b] : List Char).length = 2) hwl
  · have hc : c.isDigit := hwd c (by simp)
    have hcne : c ≠ ',' := fun h => by rw [h] at hc; exact absurd hc (by decide)
    simp [endsCommaTwoDigitsRev, hcne]

theorem endsCommaTwoDigits_not_two (u v : List Char)
    (hvd : ∀ x ∈ v, x.isDigit) (hne : v.length ≠ 2) :
    endsCommaTwoDigits (u ++ ',' :: v) = false := by
  unfold endsCommaTwoDigits
  rw [reverse_append_comma]
  exact endsCommaTwoDigitsRev_not_two v.reverse u.reverse
    (fun x hx => hvd x (List.mem_reverse.mp hx))
    (by rw [List.length_reverse]; exact hne)

theorem mem_cleanPrice_isPriceChar {s : String} {x : Char} (h : x ∈ cleanPrice s) :
    isPriceChar x = true :=
  List.of_mem_filter h

theorem cleanPrice_ne_empty {s : String} {u v : List Char} {c : Char}
    (hsplit : cleanPrice s = u ++ c :: v) : s ≠ "" := by
  intro h
  rw [h] at hsplit
  have h0 : cleanPrice "" = [] := by decide
  rw [h0] at hsplit
  exact absurd hsplit.symm (by simp)

theorem isDigit_of_priceChar {x : Char} (hp : isPriceChar x = true)
    (h1 : x ≠ '.') (h2 : x ≠ ',') : x.isDigit = true := by
  simp only [isPriceChar, Bool.or_eq_true, decide_eq_true_eq] at hp
  rcases hp with (h | h) | h
  · exact h
  · exact absurd h h1
  · exact absurd h h2

/-- Both separators present and the comma last: every dot is removed and the
(unique) comma becomes the decimal point. -/
theorem parsePriceAmount_comma_decimal (s : String) (u v : List Char)
    (hsplit : cleanPrice s = u ++ ',' :: v)
    (hu : ∀ x ∈ u, x ≠ ',') (hdot : '.' ∈ u) (hvd : ∀ x ∈ v, x.isDigit) :
    parsePriceAmount s =
      collapsePos (some ((digitsVal (removeAllChar u '.') : ℚ) +
        (digitsVal v : ℚ) / (10 : ℚ) ^ v.length)) := by
  have hupc : ∀ x ∈ u, isPriceChar x = true := fun x hx =>
    mem_cleanPrice_isPriceChar (by rw [hsplit]; exact List.mem_append_left _ hx)
  have hvnc : ∀ x ∈ v, x ≠ ',' := fun x hx h => by
    have hd := hvd x hx
    rw [h] at hd
    exact absurd hd (by decide)
  have hvnd : ∀ x ∈ v, x ≠ '.' := fun x hx h => by
    have hd := hvd x hx
    rw [h] at hd
    exact absurd hd (by decide)
  have hcv : ∀ x ∈ (',' :: v), x ≠ '.' := by
    intro x hx
    rcases List.mem_cons.mp hx with h | h
    · rw [h]; decide
    · exact hvnd x h
  have hs : s ≠ "" := cleanPrice_ne_empty hsplit
  rw [parsePriceAmount_eq, if_neg hs, hsplit,
    if_neg (by simp : ¬((u ++ ',' :: v).isEmpty = true))]
  have hcomma : hasChar (u ++ ',' :: v) ',' = true := hasChar_of_mem (by simp)
  have hdot2 : hasChar (u ++ ',' :: v) '.' = true :=
    hasChar_of_mem (List.mem_append_left _ hdot)
  have hgt : lastIndexOfD (u ++ ',' :: v) ',' > lastIndexOfD (u ++ ',' :: v) '.' := by
    rw [lastIndexOfD_append_mid u v ',' hvnc,
      lastIndexOfD_append_of_not_mem_right u (',' :: v) '.' hcv]
    exact lastIndexOfD_lt_length u '.'
  unfold normalizePrice
  rw [hcomma, hdot2, if_pos (by simp : ((true && true) = true)), if_pos hgt]
  have hrm : removeAllChar (u ++ ',' :: v) '.' = removeAllChar u '.' ++ ',' :: v := by
    rw [removeAllChar_append, removeAllChar_eq_self hcv]
  have hAnc : ∀ x ∈ removeAllChar u '.', x ≠ ',' := fun x hx => hu x (mem_removeAllChar hx)
  have hrep : replaceFirstChar (removeAllChar u '.' ++ ',' :: v) ',' '.' =
      removeAllChar u '.' ++ '.' :: v := by
    rw [replaceFirstChar_append_of_not_mem _ _ _ _ hAnc, replaceFirstChar_cons_self]
  have hAd : ∀ x ∈ removeAllChar u '.', x.isDigit = true := by
    intro x hx
    have hnd : x ≠ '.' := by
      unfold removeAllChar at hx
      exact of_decide_eq_true (List.mem_filter.mp hx).2
    exact isDigit_of_priceChar (hupc x (mem_removeAllChar hx)) hnd (hAnc x hx)
  rw [hrm, hrep, parseFloatQ_digits_dot _ _ hAd hvd]
  by_cases hemp : removeAllChar u '.' = [] ∧ v = []
  · rw [if_pos hemp, hemp.1, hemp.2]
    simp [collapsePos]
  · rw [if_neg hemp]

/-- Both separators present and the dot last: every comma is removed and the
(unique) dot is the decimal point. -/
theorem parsePriceAmount_dot_decimal (s : String) (u v : List Char)
    (hsplit : cleanPrice s = u ++ '.' :: v)
    (hu : ∀ x ∈ u, x ≠ '.') (hcomma : ',' ∈ u) (hvd : ∀ x ∈ v, x.isDigit) :
    parsePriceAmount s =
      collapsePos (some ((digitsVal (removeAllChar u ',') : ℚ) +
        (digitsVal v : ℚ) / (10 : ℚ) ^ v.length)) := by
  have hupc : ∀ x ∈ u, isPriceChar x = true := fun x hx =>
    mem_cleanPrice_isPriceChar (by rw [hsplit]; exact List.mem_append_left _ hx)
  have hvnc : ∀ x ∈ v, x ≠ ',' := fun x hx h => by
    have hd := hvd x hx
    rw [h] at hd
    exact absurd hd (by decide)
  have hvnd : ∀ x ∈ v, x ≠ '.' := fun x hx h => by
    have hd := hvd x hx
    rw [h] at hd
    exact absurd hd (by decide)
  have hdv : ∀ x ∈ ('.' :: v), x ≠ ',' := by
    intro x hx
    rcases List.mem_cons.mp hx with h | h
    · rw [h]; decide
    · exact hvnc x h
  have hs : s ≠ "" := cleanPrice_ne_empty hsplit
  rw [parsePriceAmount_eq, if_neg hs, hsplit,
    if_neg (by simp : ¬((u ++ '.' :: v).isEmpty = true))]
  have hcomma2 : hasChar (u ++ '.' :: v) ',' = true :=
    hasChar_of_mem (List.mem_append_left _ hcomma)
  have hdot2 : hasChar (u ++ '.' :: v) '.' = true := hasChar_of_mem (by simp)
  have hngt : ¬(lastIndexOfD (u ++ '.' :: v) ',' > lastIndexOfD (u ++ '.' :: v) '.') := by
    rw [lastIndexOfD_append_mid u v '.' hvnd,
      lastIndexOfD_append_of_not_mem_right u ('.' :: v) ',' hdv]
    have := lastIndexOfD_lt_length u ','
    omega
  unfold normalizePrice
  rw [hcomma2, hdot2, if_pos (by simp : ((true && true) = true)), if_neg hngt]
  have hrm : removeAllChar (u ++ '.' :: v) ',' = removeAllChar u ',' ++ '.' :: v := by
    rw [removeAllChar_append, removeAllChar_eq_self hdv]
  have hAd : ∀ x ∈ removeAllChar u ',', x.isDigit = true := by
    intro x hx
    have hnc : x ≠ ',' := by
      unfold removeAllChar at hx
      exact of_decide_eq_true (List.mem_filter.mp hx).2
    exact isDigit_of_priceChar (hupc x (mem_removeAllChar hx)) (hu x (mem_removeAllChar hx)) hnc
  rw [hrm, parseFloatQ_digits_dot _ _ hAd hvd]
  by_cases hemp : removeAllChar u ',' = [] ∧ v = []
  · rw [if_pos hemp, hemp.1, hemp.2]
    simp [collapsePos]
  · rw [if_neg hemp]

/-- Only a comma present: it acts as the decimal point exactly when followed
by exactly two trailing digits, otherwise it is dropped as grouping. -/
theorem parsePriceAmount_comma_only (s : String) (u v : List Char)
    (hsplit : cleanPrice s = u ++ ',' :: v)
    (hud : ∀ x ∈ u, x.isDigit) (hvd : ∀ x ∈ v, x.isDigit) :
    parsePriceAmount s =
      if v.length = 2 then
        collapsePos (some ((digitsVal u : ℚ) + (digitsVal v : ℚ) / (10 : ℚ) ^ 2))
      else
        collapsePos (some ((digitsVal (u ++ v) : ℚ))) := by
  have hunc : ∀ x ∈ u, x ≠ ',' := fun x hx h => by
    have hd := hud x hx
    rw [h] at hd
    exact absurd hd (by decide)
  have hund : ∀ x ∈ u, x ≠ '.' := fun x hx h => by
    have hd := hud x hx
    rw [h] at hd
    exact absurd hd (by decide)
  have hvnc : ∀ x ∈ v, x ≠ ',' := fun x hx h => by
    have hd := hvd x hx
    rw [h] at hd
    exact absurd hd (by decide)
  have hvnd : ∀ x ∈ v, x ≠ '.' := fun x hx h => by
    have hd := hvd x hx
    rw [h] at hd
    exact absurd hd (by decide)
  have hnd : ∀ x ∈ (u ++ ',' :: v), x ≠ '.' := by
    intro x hx
    rcases List.mem_append.mp hx with h | h
    · exact hund x h
    · rcases List.mem_cons.mp h with h2 | h2
      · rw [h2]; decide
      · exact hvnd x h2
  have hs : s ≠ "" := cleanPrice_ne_empty hsplit
  rw [parsePriceAmount_eq, if_neg hs, hsplit,
    if_neg (by simp : ¬((u ++ ',' :: v).isEmpty = true))]
  have hcomma : hasChar (u ++ ',' :: v) ',' = true := hasChar_of_mem (by simp)
  have hdot2 : hasChar (u ++ ',' :: v) '.' = false := hasChar_eq_false hnd
  unfold normalizePrice
  rw [hcomma, hdot2, if_neg (by simp : ¬((true && false) = true)), if_pos rfl]
  by_cases hv2 : v.length = 2
  · obtain ⟨a, b, rfl⟩ : ∃ a b, v = [a, b] := by
      rcases v with _ | ⟨a, _ | ⟨b, _ | ⟨c, t⟩⟩⟩
      · simp at hv2
      · simp at hv2
      · exact ⟨a, b, rfl⟩
      · simp only [List.length_cons] at hv2
        omega
    rw [if_pos (by simp : (([a, b] : List Char).length = 2)),
      endsCommaTwoDigits_two u a b (hvd a (by simp)) (hvd b (by simp)), if_pos rfl]
    have hrep : replaceFirstChar (u ++ ',' :: [a, b]) ',' '.' = u ++ '.' :: [a, b] := by
      rw [replaceFirstChar_append_of_not_mem _ _ _ _ hunc, replaceFirstChar_cons_self]
    rw [hrep, parseFloatQ_digits_dot _ _ hud hvd]
    by_cases hemp : u = [] ∧ ([a, b] : List Char) = []
    · exact absurd hemp.2 (by simp)
    · rw [if_neg hemp]
      norm_num
  · rw [if_neg hv2, endsCommaTwoDigits_not_two u v hvd hv2]
    rw [if_neg (by simp : ¬(false = true))]
    have hrm : removeAllChar (u ++ ',' :: v) ',' = u ++ v := by
      rw [removeAllChar_append, removeAllChar_eq_self hunc]
      show u ++ removeAllChar (',' :: v) ',' = u ++ v
      unfold removeAllChar
      rw [List.filter_cons_of_neg (by simp), List.filter_eq_self.mpr
        (fun x hx => decide_eq_true (hvnc x hx))]
    have huvd : ∀ x ∈ u ++ v, x.isDigit = true := by
      intro x hx
      rcases List.mem_append.mp hx with h | h
      · exact hud x h
      · exact hvd x h
    rw [hrm, parseFloatQ_digits _ huvd]
    by_cases hemp : u ++ v = []
    · rw [if_pos hemp, hemp]
      simp [collapsePos]
    · rw [if_neg hemp]

theorem collapsePos_nonneg (o : Option ℚ) : 0 ≤ collapsePos o := by
  rcases o with _ | q
  · exact le_refl (0 : ℚ)
  · show (0 : ℚ) ≤ if 0 < q then q else 0
    by_cases h : 0 < q
    · rw [if_pos h]
      linarith
    · rw [if_neg h]

/-- C1: separator disambiguation in `parsePriceAmount`.  The four example
equations of the claim, plus the general laws: when both separators occur, the
one occurring later in the string is the decimal point and the other is
stripped as grouping (stated for inputs in which the decimal separator occurs
once, the only inputs for which "the decimal point" is determined); when only
commas occur, the comma is the decimal point exactly when it is followed by
exactly two trailing digits. -/
theorem parseAmount_separator_disambiguation :
    parsePriceAmount "1,234.56" = 1234.56 ∧
    parsePriceAmount "1.234,56" = 1234.56 ∧
    parsePriceAmount "12,34" = 12.34 ∧
    parsePriceAmount "1,234" = 1234 ∧
    (∀ (s : String) (u v : List Char), cleanPrice s = u ++ ',' :: v →
      (∀ x ∈ u, x ≠ ',') → '.' ∈ u → (∀ x ∈ v, x.isDigit) →
      parsePriceAmount s =
        collapsePos (some ((digitsVal (removeAllChar u '.') : ℚ) +
          (digitsVal v : ℚ) / (10 : ℚ) ^ v.length))) ∧
    (∀ (s : String) (u v : List Char), cleanPrice s = u ++ '.' :: v →
      (∀ x ∈ u, x ≠ '.') → ',' ∈ u → (∀ x ∈ v, x.isDigit) →
      parsePriceAmount s =
        collapsePos (some ((digitsVal (removeAllChar u ',') : ℚ) +
          (digitsVal v : ℚ) / (10 : ℚ) ^ v.length))) ∧
    (∀ (s : String) (u v : List Char), cleanPrice s = u ++ ',' :: v →
      (∀ x ∈ u, x.isDigit) → (∀ x ∈ v, x.isDigit) →
      parsePriceAmount s =
        if v.length = 2 then
          collapsePos (some ((digitsVal u : ℚ) + (digitsVal v : ℚ) / (10 : ℚ) ^ 2))
        else collapsePos (some ((digitsVal (u ++ v) : ℚ)))) := by
  refine ⟨?_, ?_, ?_, ?_, parsePriceAmount_comma_decimal, parsePriceAmount_dot_decimal,
    parsePriceAmount_comma_only⟩
  · have h := parsePriceAmount_dot_decimal "1,234.56" ['1', ',', '2', '3', '4'] ['5', '6']
      (by decide) (by decide) (by decide) (by decide)
    rw [h]
    have e1 : digitsVal (removeAllChar ['1', ',', '2', '3', '4'] ',') = 1234 := by decide
    have e2 : digitsVal ['5', '6'] = 56 := by decide
    rw [e1, e2]
    norm_num [collapsePos]
  · have h := parsePriceAmount_comma_decimal "1.234,56" ['1', '.', '2', '3', '4'] ['5', '6']
      (by decide) (by decide) (by decide) (by decide)
    rw [h]
    have e1 : digitsVal (removeAllChar ['1', '.', '2', '3', '4'] '.') = 1234 := by decide
    have e2 : digitsVal ['5', '6'] = 56 := by decide
    rw [e1, e2]
    norm_num [collapsePos]
  · have h := parsePriceAmount_comma_only "12,34" ['1', '2'] ['3', '4']
      (by decide) (by decide) (by decide)
    rw [h]
    have e1 : digitsVal ['1', '2'] = 12 := by decide
    have e2 : digitsVal ['3', '4'] = 34 := by decide
    norm_num [e1, e2, collapsePos]
  · have h := parsePriceAmount_comma_only "1,234" ['1'] ['2', '3', '4']
      (by decide) (by decide) (by decide)
    rw [h]
    have e1 : digitsVal ['1', '2', '3', '4'] = 1234 := by decide
    norm_num [e1, collapsePos]

/-- Witness for C1: the European-format law applied at the concrete input
`"€1.234,56"`. -/
theorem parseAmount_separator_disambiguation_witness :
    parsePriceAmount "€1.234,56" = 1234.56 := by
  have h := parseAmount_separator_disambiguation.2.2.2.2.1 "€1.234,56"
    ['1', '.', '2', '3', '4'] ['5', '6'] (by decide) (by decide) (by decide) (by decide)
  rw [h]
  have e1 : digitsVal (removeAllChar ['1', '.', '2', '3', '4'] '.') = 1234 := by decide
  have e2 : digitsVal ['5', '6'] = 56 := by decide
  rw [e1, e2]
  norm_num [collapsePos]

/-- C2: `parsePriceAmount` is total into ℚ (a failed or non-finite parse is
the `none` of `parseFloatQ`, collapsed to `0` by `collapsePos`), never
negative, `0` on the empty string and on strings with no digit, dot or comma,
and the identity on positive numeric input, `0` on non-positive numeric
input. -/
theorem parseAmount_never_negative_or_nan :
    (∀ s : String, 0 ≤ parsePriceAmount s) ∧
    parsePriceAmount "" = 0 ∧
    (∀ s : String, (∀ c ∈ s.data, isPriceChar c = false) → parsePriceAmount s = 0) ∧
    (∀ q : ℚ, 0 < q → parsePriceAmountNum q = q) ∧
    (∀ q : ℚ, q ≤ 0 → parsePriceAmountNum q = 0) ∧
    collapsePos none = 0 ∧
    (∀ q : ℚ, q ≤ 0 → collapsePos (some q) = 0) := by
  refine ⟨?_, ?_, ?_, ?_, ?_, rfl, ?_⟩
  · intro s
    rw [parsePriceAmount_eq]
    split
    · exact le_refl 0
    · split
      · exact le_refl 0
      · exact collapsePos_nonneg _
  · rw [parsePriceAmount_eq, if_pos rfl]
  · intro s h
    have hnil : cleanPrice s = [] := by
      unfold cleanPrice
      rw [List.filter_eq_nil_iff]
      intro c hc
      simp [h c hc]
    rw [parsePriceAmount_eq]
    split
    · rfl
    · rw [hnil]
      rfl
  · intro q hq
    unfold parsePriceAmountNum
    rw [if_pos hq]
  · intro q hq
    unfold parsePriceAmountNum
    rw [if_neg (not_lt.mpr hq)]
  · intro q hq
    show (if 0 < q then q else 0 : ℚ) = 0
    rw [if_neg (not_lt.mpr hq)]

/-- Witness for C2 at concrete inputs: a garbage string parses to `0`, a
positive number is returned as-is, a negative number collapses to `0`. -/
theorem parseAmount_never_negative_or_nan_witness :
    parsePriceAmount "no price here!" = 0 ∧
    parsePriceAmountNum 5 = 5 ∧ parsePriceAmountNum (-3) = 0 :=
  ⟨parseAmount_never_negative_or_nan.2.2.1 "no price here!" (by decide),
   parseAmount_never_negative_or_nan.2.2.2.1 5 (by norm_num),
   parseAmount_never_negative_or_nan.2.2.2.2.1 (-3) (by norm_num)⟩

/-! ## Currency Detector (currency.ts) -/

/-- The `Currency` string union. -/
inductive Currency
  | USD | AUD | MYR | SGD | NZD | GBP | EUR | CAD | JPY | CNY | HKD
  | INR | PHP | THB | IDR | VND | KRW | TWD | UNKNOWN
  deriving DecidableEq, Repr

/-- `Price { amount, currency }`. -/
structure Price where
  amount : ℚ
  currency : Currency
  deriving DecidableEq, Repr

/-- `CurrencyDetectionOptions`; absent fields are `none`. -/
structure CurrencyDetectionOptions where
  userLocation : Option String := none
  defaultCurrency : Option Currency := none
  sourceUrl : Option String := none
  deriving DecidableEq, Repr

/-- The `if (options?.sourceUrl)` block of `detectCurrency`: TLD substring
checks on the lowercased source URL, in source order; `none` when no TLD
matches and control falls through.  The empty string is falsy in JavaScript,
hence the explicit emptiness test. -/
def sourceUrlCurrency : Option String → Option Currency
  | none => none
  | some url0 =>
    if url0 = "" then none
    else
      let url := toLowerS url0
      if containsSub url ".com.au" then some .AUD
      else if containsSub url ".com.my" then some .MYR
      else if containsSub url ".com.sg" then some .SGD
      else if containsSub url ".co.nz" then some .NZD
      else if containsSub url ".co.uk" then some .GBP
      else if containsSub url ".com.hk" then some .HKD
      else if containsSub url ".co.in" || containsSub url ".in" then some .INR
      else if containsSub url ".com.ph" || containsSub url ".ph" then some .PHP
      else if containsSub url ".co.th" || containsSub url ".th" then some .THB
      else if containsSub url ".co.id" || containsSub url ".id" then some .IDR
      else if containsSub url ".com.vn" || containsSub url ".vn" then some .VND
      else if containsSub url ".co.kr" || containsSub url ".kr" then some .KRW
      else if containsSub url ".com.tw" || containsSub url ".tw" then some .TWD
      else if containsSub url ".co.jp" || containsSub url ".jp" then some .JPY
      else if containsSub url ".cn" then some .CNY
      else none

/-- The `if (options?.userLocation)` block: exact country-code matches in
source order; `none` when no code matches. -/
def userLocationCurrency : Option String → Option Currency
  | none => none
  | some loc =>
    if loc = "" then none
    else if loc = "AU" then some .AUD
    else if loc = "MY" then some .MYR
    else if loc = "SG" then some .SGD
    else if loc = "US" then some .USD
    else if loc = "GB" || loc = "UK" then some .GBP
    else if loc = "HK" then some .HKD
    else if loc = "IN" then some .INR
    else if loc = "PH" then some .PHP
    else if loc = "TH" then some .THB
    else if loc = "ID" then some .IDR
    else if loc = "VN" then some .VND
    else if loc = "KR" then some .KRW
    else if loc = "TW" then some .TWD
    else if loc = "JP" then some .JPY
    else if loc = "CN" then some .CNY
    else none

/-- `detectCurrency(text, options)`.  `userPref` is the value the injected
`getDefaultCurrency()` reads from `localStorage` (an external key-value
store); the source returns it for the bare-`$` case when present and not
`'UNKNOWN'`, else falls back to USD. -/
def detectCurrency (text : String) (options : CurrencyDetectionOptions)
    (userPref : Option Currency) : Currency :=
  let s := toLowerS text
  if containsSub s "myr" || containsSub s "rm" then .MYR
  else if containsSub s "sgd" || containsSub s "s$" then .SGD
  else if containsSub s "nzd" || containsSub s "nz$" then .NZD
  else if containsSub s "gbp" || containsSub s "£" then .GBP
  else if containsSub s "eur" || containsSub s "€" then .EUR
  else if containsSub s "cad" || containsSub s "c$" then .CAD
  else if containsSub s "jpy" || containsSub s "¥" || containsSub s "yen" then .JPY
  else if containsSub s "cny" || containsSub s "yuan" || containsSub s "rmb" then .CNY
  else if containsSub s "hkd" || containsSub s "hk$" then .HKD
  else if containsSub s "inr" || containsSub s "₹" || containsSub s "rupee"
    || containsSub s "rupees" then .INR
  else if containsSub s "php" || containsSub s "₱" || containsSub s "peso"
    || containsSub s "pesos" then .PHP
  else if containsSub s "thb" || containsSub s "฿" || containsSub s "baht" then .THB
  else if containsSub s "idr" || containsSub s "rupiah" then .IDR
  else if containsSub s "vnd" || containsSub s "₫" || containsSub s "dong" then .VND
  else if containsSub s "krw" || containsSub s "₩" || containsSub s "won" then .KRW
  else if containsSub s "twd" || containsSub s "nt$" then .TWD
  else if containsSub s "aud" || containsSub s "au$" || containsSub s "a$"
    || containsSub s "australian dollar" then .AUD
  else if containsSub s "usd" || containsSub s "us$" || containsSub s "us dollar" then .USD
  else if containsSub s "$" then
    match sourceUrlCurrency options.sourceUrl with
    | some c => c
    | none =>
      match options.defaultCurrency with
      | some c => c
      | none =>
        match userLocationCurrency options.userLocation with
        | some c => c
        | none =>
          match userPref with
          | some p => if p ≠ .UNKNOWN then p else .USD
          | none => .USD
  else .UNKNOWN

/-- Modelled from the claim's wording: the bare-`$` disambiguation chain in
priority order — (a) source-URL TLD, (b) the `defaultCurrency` option, (c)
the `userLocation` mapping, (d) the stored user preference (when set and not
`UNKNOWN`), (e) USD. -/
def dollarPriority (options : CurrencyDetectionOptions)
    (userPref : Option Currency) : Currency :=
  ((sourceUrlCurrency options.sourceUrl).orElse (fun _ =>
    (options.defaultCurrency).orElse (fun _ =>
      (userLocationCurrency options.userLocation).orElse (fun _ =>
        match userPref with
        | some p => if p ≠ .UNKNOWN then some p else none
        | none => none)))).getD .USD

/-- The text contains `$` and none of the currency words, codes and symbols
that `detectCurrency` tests before reaching the `$` branch. -/
@[reducible] def onlyBareDollar (s : String) : Prop :=
  (containsSub s "myr" || containsSub s "rm") = false ∧
  (containsSub s "sgd" || containsSub s "s$") = false ∧
  (containsSub s "nzd" || containsSub s "nz$") = false ∧
  (containsSub s "gbp" || containsSub s "£") = false ∧
  (containsSub s "eur" || containsSub s "€") = false ∧
  (containsSub s "cad" || containsSub s "c$") = false ∧
  (containsSub s "jpy" || containsSub s "¥" || containsSub s "yen") = false ∧
  (containsSub s "cny" || containsSub s "yuan" || containsSub s "rmb") = false ∧
  (containsSub s "hkd" || containsSub s "hk$") = false ∧
  (containsSub s "inr" || containsSub s "₹" || containsSub s "rupee"
    || containsSub s "rupees") = false ∧
  (containsSub s "php" || containsSub s "₱" || containsSub s "peso"
    || containsSub s "pesos") = false ∧
  (containsSub s "thb" || containsSub s "฿" || containsSub s "baht") = false ∧
  (containsSub s "idr" || containsSub s "rupiah") = false ∧
  (containsSub s "vnd" || containsSub s "₫" || containsSub s "dong") = false ∧
  (containsSub s "krw" || containsSub s "₩" || containsSub s "won") = false ∧
  (containsSub s "twd" || containsSub s "nt$") = false ∧
  (containsSub s "aud" || containsSub s "au$" || containsSub s "a$"
    || containsSub s "australian dollar") = false ∧
  (containsSub s "usd" || containsSub s "us$" || containsSub s "us dollar") = false ∧
  containsSub s "$" = true

theorem detectCurrency_dollar_chain (text : String)
    (options : CurrencyDetectionOptions) (userPref : Option Currency)
    (h : onlyBareDollar (toLowerS text)) :
    detectCurrency text options userPref = dollarPriority options userPref := by
  obtain ⟨h1, h2, h3, h4, h5, h6, h7, h8, h9, h10, h11, h12, h13, h14, h15, h16,
    h17, h18, hd⟩ := h
  unfold detectCurrency
  simp only [h1, h2, h3, h4, h5, h6, h7, h8, h9, h10, h11, h12, h13, h14, h15, h16,
    h17, h18, hd, Bool.false_eq_true, if_false, if_true]
  unfold dollarPriority
  cases hsu : sourceUrlCurrency options.sourceUrl with
  | some c => simp [Option.orElse]
  | none =>
    cases hdc : options.defaultCurrency with
    | some c => simp [Option.orElse]
    | none =>
      cases hul : userLocationCurrency options.userLocation with
      | some c => simp [Option.orElse]
      | none =>
        cases userPref with
        | none => simp [Option.orElse]
        | some p =>
          by_cases hp : p = Currency.UNKNOWN <;> simp [Option.orElse, hp]

/-- C3: `detectCurrency` maps `"RM 99"` to MYR, signal-free text to UNKNOWN,
`"$99"` with an Australian source URL to AUD; and whenever the text carries
only a bare `$`, the result is the priority chain source-URL TLD →
`defaultCurrency` → `userLocation` → stored preference → USD
(`dollarPriority`), with the concrete conjuncts checking each priority step
dominating the next. -/
theorem detectCurrency_examples_and_priority :
    (∀ pref, detectCurrency "RM 99" {} pref = .MYR) ∧
    (∀ pref, detectCurrency "no currency here" {} pref = .UNKNOWN) ∧
    (∀ pref, detectCurrency "$99" { sourceUrl := some "shop.com.au/x" } pref = .AUD) ∧
    (∀ text options pref, onlyBareDollar (toLowerS text) →
      detectCurrency text options pref = dollarPriority options pref) ∧
    detectCurrency "$99"
      { userLocation := some "US", defaultCurrency := some .GBP,
        sourceUrl := some "shop.com.au/x" } (some .EUR) = .AUD ∧
    detectCurrency "$99"
      { userLocation := some "MY", defaultCurrency := some .GBP,
        sourceUrl := some "example.org/x" } (some .EUR) = .GBP ∧
    detectCurrency "$99" { userLocation := some "MY" } (some .EUR) = .MYR ∧
    detectCurrency "$99" {} (some .EUR) = .EUR ∧
    detectCurrency "$99" {} (some .UNKNOWN) = .USD ∧
    detectCurrency "$99" {} none = .USD :=
  ⟨fun _ => rfl, fun _ => rfl, fun _ => rfl, detectCurrency_dollar_chain,
    by decide, by decide, by decide, by decide, by decide, by decide⟩

/-- Witness for C3: the bare-`$` chain law applied at the concrete text
`"$42"` with empty options and no stored preference. -/
theorem detectCurrency_examples_and_priority_witness :
    detectCurrency "$42" {} none = dollarPriority {} none :=
  detectCurrency_examples_and_priority.2.2.2.1 "$42" {} none (by decide)

/-! ## Price extraction from free text (`extractPriceFromText`,
search.ts lines 104-121 and metadata.ts lines 26-45; the two versions differ
only in their regex pattern lists).

`String.prototype.match` runs a regex engine that is not part of this
repository; the loop is therefore modelled over the list of the captured
amount groups, one entry per pattern in source order, `none` when the pattern
does not match.  The properties proved below hold for every possible regex
outcome, hence for the real pattern lists of both copies. -/

/-- The pattern loop of `extractPriceFromText`.  A captured group that is the
empty string is falsy in JavaScript (`match?.[1]`), hence skipped. -/
def extractLoop (currency : Currency) : List (Option String) → Price
  | [] => ⟨0, .UNKNOWN⟩
  | none :: rest => extractLoop currency rest
  | some g :: rest =>
    if g = "" then extractLoop currency rest
    else if 0 < parsePriceAmount g then
      ⟨parsePriceAmount g, if currency ≠ .UNKNOWN then currency else .USD⟩
    else extractLoop currency rest

/-- `extractPriceFromText(text)`: detect the currency from the whole text,
then return the first pattern hit whose parsed amount is positive. -/
def extractPriceFromText (text : String) (userPref : Option Currency)
    (regexHits : List (Option String)) : Price :=
  extractLoop (detectCurrency text {} userPref) regexHits

theorem extractLoop_cons_some (c : Currency) (g : String)
    (rest : List (Option String)) :
    extractLoop c (some g :: rest) =
      if g = "" then extractLoop c rest
      else if 0 < parsePriceAmount g then
        ⟨parsePriceAmount g, if c ≠ .UNKNOWN then c else .USD⟩
      else extractLoop c rest := rfl

theorem extractLoop_cases (c : Currency) (ms : List (Option String)) :
    extractLoop c ms = ⟨0, .UNKNOWN⟩ ∨
      (0 < (extractLoop c ms).amount ∧
        (extractLoop c ms).currency = (if c ≠ .UNKNOWN then c else .USD)) := by
  induction ms with
  | nil => exact Or.inl rfl
  | cons m rest ih =>
    rcases m with _ | g
    · exact ih
    · rw [extractLoop_cons_some]
      by_cases hg : g = ""
      · rw [if_pos hg]
        exact ih
      · rw [if_neg hg]
        by_cases hpos : 0 < parsePriceAmount g
        · rw [if_pos hpos]
          exact Or.inr ⟨hpos, rfl⟩
        · rw [if_neg hpos]
          exact ih

/-- C10: `extractPriceFromText` never returns a positive amount with UNKNOWN
currency: for every text and every regex outcome, the result is either
exactly `{amount: 0, currency: UNKNOWN}` or has a positive amount and
currency equal to the detected currency, USD when detection is UNKNOWN — in
particular never UNKNOWN alongside a positive amount. -/
theorem extractPrice_no_positive_unknown (text : String)
    (userPref : Option Currency) (regexHits : List (Option String)) :
    extractPriceFromText text userPref regexHits = ⟨0, .UNKNOWN⟩ ∨
      (0 < (extractPriceFromText text userPref regexHits).amount ∧
        (extractPriceFromText text userPref regexHits).currency =
          (if detectCurrency text {} userPref ≠ .UNKNOWN
            then detectCurrency text {} userPref else .USD) ∧
        (extractPriceFromText text userPref regexHits).currency ≠ .UNKNOWN) := by
  unfold extractPriceFromText
  rcases extractLoop_cases (detectCurrency text {} userPref) regexHits with h | ⟨h1, h2⟩
  · exact Or.inl h
  · refine Or.inr ⟨h1, h2, ?_⟩
    rw [h2]
    by_cases hu : detectCurrency text {} userPref = .UNKNOWN
    · rw [if_neg (by simp [hu])]
      simp
    · rw [if_pos hu]
      exact hu

/-! ## Search-result deduplication (`searchItems` step 4,
search.ts lines 310-321) -/

/-- `s.replace(/\/$/, '')`: strip one trailing slash, if any. -/
def stripTrailingSlash (s : String) : String :=
  match s.data.reverse with
  | '/' :: rest => ⟨rest.reverse⟩
  | _ => s

/-- `item.link.toLowerCase().replace(/\/$/, '')`: the deduplication key. -/
def normalizeLink (link : String) : String :=
  stripTrailingSlash (toLowerS link)

/-- Step 4's loop over `allItems` with the `seenUrls` set. -/
def dedupeAux (seen : List String) : List String → List String
  | [] => []
  | l :: ls =>
    if normalizeLink l ∈ seen then dedupeAux seen ls
    else l :: dedupeAux (normalizeLink l :: seen) ls

/-- The deduplicated `uniqueItems` list (by link). -/
def dedupeByUrl (links : List String) : List String :=
  dedupeAux [] links

theorem dedupeAux_countP (key : String) (links : List String) :
    ∀ seen : List String,
      (dedupeAux seen links).countP (fun l => normalizeLink l == key) =
        if key ∈ seen then 0
        else if links.any (fun l => normalizeLink l == key) then 1 else 0 := by
  induction links with
  | nil =>
    intro seen
    by_cases h : key ∈ seen <;> simp [dedupeAux, h]
  | cons l ls ih =>
    intro seen
    unfold dedupeAux
    by_cases hseen : normalizeLink l ∈ seen
    · rw [if_pos hseen, ih seen]
      by_cases hkey : key ∈ seen
      · simp [hkey]
      · have hne : (normalizeLink l == key) = false := by
          simp only [beq_eq_false_iff_ne, ne_eq]
          intro h
          rw [h] at hseen
          exact hkey hseen
        simp [hkey, hne]
    · rw [if_neg hseen, List.countP_cons, ih (normalizeLink l :: seen)]
      by_cases hkl : normalizeLink l = key
      · have hmem : key ∈ normalizeLink l :: seen := by rw [hkl] at *; simp
        have hkey : key ∉ seen := by rw [← hkl]; exact hseen
        simp [hmem, hkey, hkl]
      · have hmem : (key ∈ normalizeLink l :: seen) ↔ key ∈ seen := by
          simp [List.mem_cons]
          intro h
          exact absurd h.symm hkl
        have hne : (normalizeLink l == key) = false := by
          simp only [beq_eq_false_iff_ne, ne_eq]
          exact hkl
        by_cases hkey : key ∈ seen
        · simp [hmem, hkey, hne]
        · simp [hmem, hkey, hne]

/-- C6 counterexample: two candidate links that differ only by one trailing
slash (the shorter one itself ends in a slash) normalise to different keys —
one trailing slash is stripped, not both — so the merged list keeps both
entries instead of exactly one. -/
theorem dedupe_trailing_slash_counterexample :
    dedupeByUrl ["https://shop.com/p/", "https://shop.com/p//"] =
      ["https://shop.com/p/", "https://shop.com/p//"] ∧
    "https://shop.com/p//" = "https://shop.com/p/" ++ "/" := by
  constructor
  · decide
  · rfl

/-- C6 (amended): deduplication is by the normalised URL — lowercased, at
most one trailing slash stripped.  Any two candidate links with the same
normalised URL (in particular links differing only by letter case, or by one
trailing slash added to a link not already ending in a slash) leave exactly
one entry with that normalised URL in the merged list. -/
theorem dedupe_unique_by_normalized_url :
    (∀ (links : List String) (l : String), l ∈ links →
      (dedupeByUrl links).countP (fun x => normalizeLink x == normalizeLink l) = 1) ∧
    (∀ a b : String, toLowerS a = toLowerS b → normalizeLink a = normalizeLink b) ∧
    (∀ a : String, stripTrailingSlash (toLowerS a) = toLowerS a →
      normalizeLink (a ++ "/") = normalizeLink a) := by
  refine ⟨?_, ?_, ?_⟩
  · intro links l hl
    rw [dedupeByUrl, dedupeAux_countP (normalizeLink l) links []]
    rw [if_neg (List.not_mem_nil _), if_pos]
    rw [List.any_eq_true]
    exact ⟨l, hl, by simp⟩
  · intro a b h
    unfold normalizeLink
    rw [h]
  · intro a h
    unfold normalizeLink
    have hlow : toLowerS (a ++ "/") = ⟨(toLowerS a).data ++ ['/']⟩ := by
      unfold toLowerS
      rw [String.data_append]
      rw [List.map_append]
      rfl
    rw [hlow, h]
    unfold stripTrailingSlash
    rw [List.reverse_append]
    simp

/-- Witness for C6 (amended): two links differing by case and a trailing
slash leave exactly one entry for their shared normalised URL. -/
theorem dedupe_unique_by_normalized_url_witness :
    (dedupeByUrl ["https://Shop.com/P", "https://shop.com/p/"]).countP
      (fun x => normalizeLink x == normalizeLink "https://Shop.com/P") = 1 :=
  dedupe_unique_by_normalized_url.1 ["https://Shop.com/P", "https://shop.com/p/"]
    "https://Shop.com/P" (by simp)

/-! ## Metadata, the metadata cache, and background enrichment (search.ts) -/

/-- `Metadata` (metadata.ts): title, image, price, canonical URL. -/
structure Metadata where
  title : String
  image : String
  price : Price
  url : String
  deriving DecidableEq, Repr

/-- `SearchResult extends Metadata { source, snippet?, isShoppingResult? }`. -/
structure SearchResult where
  title : String
  url : String
  snippet : String
  source : String
  price : Price
  image : String
  isShoppingResult : Bool
  deriving DecidableEq, Repr

/-- One `metadataCache` slot: `{ data, timestamp }`. -/
structure CacheEntry where
  data : Metadata
  timestamp : ℕ
  deriving DecidableEq, Repr

/-- The module-level `metadataCache` map, as an association list; `set` is
modelled by prepending (the newest binding shadows older ones for `find?`,
matching `Map.set`/`Map.get`). -/
abbrev Cache := List (String × CacheEntry)

/-- `CACHE_DURATION = 5 * 60 * 1000` (5 minutes). -/
def CACHE_DURATION : ℕ := 5 * 60 * 1000

/-- `hasUsefulData` from `enhanceResults` (search.ts lines 361-365): truthy
title that is not an access-denied placeholder, and a positive price or a
non-empty image. -/
def hasUsefulData (m : Metadata) : Bool :=
  m.title ≠ "" && m.title ≠ "Access Denied" && m.title ≠ "Denied" &&
    !(containsSub (toLowerS m.title) "access denied") &&
    (0 < m.price.amount || m.image ≠ "")

/-- The usefulness property as stated by the claim, independent of the
code's boolean. -/
def usefulSpec (m : Metadata) : Prop :=
  m.title ≠ "" ∧ m.title ≠ "Access Denied" ∧ m.title ≠ "Denied" ∧
    containsSub (toLowerS m.title) "access denied" = false ∧
    (0 < m.price.amount ∨ m.image ≠ "")

theorem hasUsefulData_iff (m : Metadata) : hasUsefulData m = true ↔ usefulSpec m := by
  unfold hasUsefulData usefulSpec
  simp only [Bool.and_eq_true, Bool.or_eq_true, Bool.not_eq_true',
    decide_eq_true_eq]
  tauto

/-- `{ ...result, ...cached.data }`: the spread overwrites every `Metadata`
field of the result with the cached value. -/
def mergeCached (r : SearchResult) (m : Metadata) : SearchResult :=
  { r with title := m.title, image := m.image, price := m.price, url := m.url }

/-- The cache-miss path of one enrichment task: await `fetchMetadata` (its
outcome supplied by `oracle`; `Except.error` is a thrown exception), keep the
result only when useful, and swallow every error (`catch` logs and returns).
Result: `onProgress` emissions, cache insertions, updated results entry. -/
def enhanceFetch (now : ℕ) (oracle : String → Except String Metadata)
    (r : SearchResult) :
    List SearchResult × List (String × CacheEntry) × SearchResult :=
  match oracle r.url with
  | .error _ => ([], [], r)
  | .ok m =>
    if hasUsefulData m then
      ([{ r with
          title := if m.title ≠ "" then m.title else r.title,
          price := if m.price.amount ≠ 0 then m.price else r.price,
          image := if m.image ≠ "" then m.image else r.image }],
       [(r.url, ⟨m, now⟩)],
       { r with
          title := if m.title ≠ "" then m.title else r.title,
          price := if m.price.amount ≠ 0 then m.price else r.price,
          image := if m.image ≠ "" then m.image else r.image })
    else ([], [], r)

/-- One enrichment task (`itemsToEnhance.map(async result => ...)`): a fresh
cache hit emits the merged cached data and returns; otherwise the fetch path
runs. -/
def enhanceOne (now : ℕ) (cache : Cache)
    (oracle : String → Except String Metadata) (r : SearchResult) :
    List SearchResult × List (String × CacheEntry) × SearchResult :=
  match List.find? (fun e => e.1 == r.url) cache with
  | some e =>
    if now - e.2.timestamp < CACHE_DURATION then ([mergeCached r e.2.data], [], r)
    else enhanceFetch now oracle r
  | none => enhanceFetch now oracle r

/-- The filter selecting `itemsToEnhance`: `(!r.price.amount || !r.image) &&
isValidProductUrl(r.url)`.  `isValidProductUrl` consults the platform URL
parser, so its outcome is supplied as `validUrl`. -/
def needsEnhance (validUrl : String → Bool) (r : SearchResult) : Bool :=
  (r.price.amount == 0 || r.image == "") && validUrl r.url

/-- `enhanceResults`: the enrichment tasks run concurrently under
`Promise.all`; each task's synchronous prefix (its cache read) runs before
any fetch resolves, so every task reads the pre-batch cache, and the writes
accumulate on top of it.  Events are listed task by task (any real
interleaving preserves each URL's own order).  Returns the emissions, the
final cache, and the updated `initialResults`. -/
def enhanceResults (now : ℕ) (cache : Cache)
    (oracle : String → Except String Metadata) (validUrl : String → Bool)
    (initialResults : List SearchResult) :
    List SearchResult × Cache × List SearchResult :=
  ((initialResults.filter (needsEnhance validUrl)).flatMap
      (fun r => (enhanceOne now cache oracle r).1),
   ((initialResults.filter (needsEnhance validUrl)).flatMap
      (fun r => (enhanceOne now cache oracle r).2.1)) ++ cache,
   initialResults.map (fun r =>
     if needsEnhance validUrl r then (enhanceOne now cache oracle r).2.2 else r))

/-- The `onProgress` event stream of one `searchItems` call from step 6 on:
every initial result is emitted first, then the background enrichment
emissions follow. -/
def searchEvents (now : ℕ) (cache : Cache)
    (oracle : String → Except String Metadata) (validUrl : String → Bool)
    (initialResults : List SearchResult) : List SearchResult :=
  initialResults ++ (enhanceResults now cache oracle validUrl initialResults).1

/-- The periodic sweep (search.ts lines 473-480): delete every entry older
than `CACHE_DURATION`. -/
def sweepCache (now : ℕ) (c : Cache) : Cache :=
  c.filter (fun e => !(CACHE_DURATION < now - e.2.timestamp))

/-- Every metadata value stored in the cache is useful. -/
def cacheUseful (c : Cache) : Prop :=
  ∀ e ∈ c, usefulSpec e.2.data

/-! ### Evaluation lemmas for the enrichment step -/

/-- The enriched entry built on a successful useful fetch. -/
theorem enhanceFetch_error (now : ℕ) (oracle : String → Except String Metadata)
    (r : SearchResult) (msg : String) (h : oracle r.url = .error msg) :
    enhanceFetch now oracle r = ([], [], r) := by
  unfold enhanceFetch
  rw [h]

theorem enhanceFetch_ok (now : ℕ) (oracle : String → Except String Metadata)
    (r : SearchResult) (m : Metadata) (h : oracle r.url = .ok m) :
    enhanceFetch now oracle r =
      if hasUsefulData m then
        ([{ r with
            title := if m.title ≠ "" then m.title else r.title,
            price := if m.price.amount ≠ 0 then m.price else r.price,
            image := if m.image ≠ "" then m.image else r.image }],
         [(r.url, ⟨m, now⟩)],
         { r with
            title := if m.title ≠ "" then m.title else r.title,
            price := if m.price.amount ≠ 0 then m.price else r.price,
            image := if m.image ≠ "" then m.image else r.image })
      else ([], [], r) := by
  unfold enhanceFetch
  rw [h]

theorem enhanceOne_found (now : ℕ) (cache : Cache)
    (oracle : String → Except String Metadata) (r : SearchResult)
    (e : String × CacheEntry) (h : List.find? (fun en => en.1 == r.url) cache = some e) :
    enhanceOne now cache oracle r =
      if now - e.2.timestamp < CACHE_DURATION then ([mergeCached r e.2.data], [], r)
      else enhanceFetch now oracle r := by
  unfold enhanceOne
  rw [h]

theorem enhanceOne_missing (now : ℕ) (cache : Cache)
    (oracle : String → Except String Metadata) (r : SearchResult)
    (h : List.find? (fun en => en.1 == r.url) cache = none) :
    enhanceOne now cache oracle r = enhanceFetch now oracle r := by
  unfold enhanceOne
  rw [h]

theorem enhanceFetch_newEntries_useful (now : ℕ)
    (oracle : String → Except String Metadata) (r : SearchResult) :
    ∀ x ∈ (enhanceFetch now oracle r).2.1, usefulSpec x.2.data := by
  intro x hx
  rcases horacle : oracle r.url with msg | m
  · rw [enhanceFetch_error now oracle r msg horacle] at hx
    simp at hx
  · rw [enhanceFetch_ok now oracle r m horacle] at hx
    by_cases hu : hasUsefulData m = true
    · rw [if_pos hu] at hx
      simp only [List.mem_singleton] at hx
      rw [hx]
      exact (hasUsefulData_iff m).mp hu
    · rw [if_neg hu] at hx
      simp at hx

theorem enhanceOne_newEntries_useful (now : ℕ) (cache : Cache)
    (oracle : String → Except String Metadata) (r : SearchResult) :
    ∀ x ∈ (enhanceOne now cache oracle r).2.1, usefulSpec x.2.data := by
  intro x hx
  rcases hfind : List.find? (fun en => en.1 == r.url) cache with _ | e
  · rw [enhanceOne_missing now cache oracle r hfind] at hx
    exact enhanceFetch_newEntries_useful now oracle r x hx
  · rw [enhanceOne_found now cache oracle r e hfind] at hx
    by_cases hfresh : now - e.2.timestamp < CACHE_DURATION
    · rw [if_pos hfresh] at hx
      simp at hx
    · rw [if_neg hfresh] at hx
      exact enhanceFetch_newEntries_useful now oracle r x hx

/-- C9: the metadata-cache usefulness invariant.  Every cache state in which
all stored values satisfy the usefulness property still satisfies it after a
full enrichment pass (the only writer, guarded by `hasUsefulData`) and after
the periodic sweep (which only deletes). -/
theorem metadataCache_useful_invariant :
    (∀ (now : ℕ) (cache : Cache) (oracle : String → Except String Metadata)
        (validUrl : String → Bool) (results : List SearchResult),
      cacheUseful cache →
      cacheUseful (enhanceResults now cache oracle validUrl results).2.1) ∧
    (∀ (now : ℕ) (cache : Cache), cacheUseful cache →
      cacheUseful (sweepCache now cache)) := by
  constructor
  · intro now cache oracle validUrl results h e he
    unfold enhanceResults at he
    rcases List.mem_append.mp he with hm | hm
    · rcases List.mem_flatMap.mp hm with ⟨r, _, hre⟩
      exact enhanceOne_newEntries_useful now cache oracle r e hre
    · exact h e hm
  · intro now cache h e he
    exact h e (List.mem_of_mem_filter he)

/-- Witness for C9: the invariant holds concretely for an enrichment pass
over one result with an empty cache and a failing fetch, and for a sweep. -/
theorem metadataCache_useful_invariant_witness :
    cacheUseful (enhanceResults 0 [] (fun _ => Except.error "network")
      (fun _ => true)
      [⟨"Item", "https://x.com/p", "", "x.com", ⟨0, .UNKNOWN⟩, "", false⟩]).2.1 ∧
    cacheUseful (sweepCache 0 []) :=
  ⟨metadataCache_useful_invariant.1 0 [] (fun _ => Except.error "network")
      (fun _ => true) [⟨"Item", "https://x.com/p", "", "x.com", ⟨0, .UNKNOWN⟩, "", false⟩]
      (fun e he => absurd he (List.not_mem_nil e)),
   metadataCache_useful_invariant.2 0 []
      (fun e he => absurd he (List.not_mem_nil e))⟩

theorem flatMap_eq_nil_of_mem {α β : Type} (l : List α) (f : α → List β)
    (h : ∀ x ∈ l, f x = []) : l.flatMap f = [] := by
  induction l with
  | nil => rfl
  | cons x xs ih =>
    rw [List.flatMap_cons, h x (by simp), List.nil_append]
    exact ih (fun y hy => h y (by simp [hy]))

theorem map_id_of_mem {α : Type} (l : List α) (f : α → α)
    (h : ∀ x ∈ l, f x = x) : l.map f = l := by
  induction l with
  | nil => rfl
  | cons x xs ih =>
    rw [List.map_cons, h x (by simp)]
    rw [ih (fun y hy => h y (by simp [hy]))]

/-- C8: errors raised during background enrichment are fully swallowed.  A
task whose fetch throws (and whose URL misses the cache) emits nothing,
writes nothing and leaves its entry untouched; and an entire enrichment pass
in which every fetch throws produces no `onProgress` event, leaves the cache
unchanged, and returns the caller's results unchanged — in the embedding the
pass is a total function whose result type carries no error at all, so no
exception can reach the caller of `searchItems`. -/
theorem enrichment_errors_swallowed :
    (∀ (now : ℕ) (cache : Cache) (oracle : String → Except String Metadata)
        (r : SearchResult) (msg : String),
      oracle r.url = Except.error msg →
      List.find? (fun en => en.1 == r.url) cache = none →
      enhanceOne now cache oracle r = ([], [], r)) ∧
    (∀ (now : ℕ) (cache : Cache) (oracle : String → Except String Metadata)
        (validUrl : String → Bool) (results : List SearchResult),
      (∀ r ∈ results, ∃ msg, oracle r.url = Except.error msg) →
      (∀ r ∈ results, List.find? (fun en => en.1 == r.url) cache = none) →
      (enhanceResults now cache oracle validUrl results).1 = [] ∧
      (enhanceResults now cache oracle validUrl results).2.1 = cache ∧
      (enhanceResults now cache oracle validUrl results).2.2 = results) := by
  have part1 : ∀ (now : ℕ) (cache : Cache) (oracle : String → Except String Metadata)
      (r : SearchResult) (msg : String),
      oracle r.url = Except.error msg →
      List.find? (fun en => en.1 == r.url) cache = none →
      enhanceOne now cache oracle r = ([], [], r) := by
    intro now cache oracle r msg horacle hfind
    rw [enhanceOne_missing now cache oracle r hfind,
      enhanceFetch_error now oracle r msg horacle]
  refine ⟨part1, ?_⟩
  intro now cache oracle validUrl results horacle hfind
  have hone : ∀ r ∈ results, enhanceOne now cache oracle r = ([], [], r) := by
    intro r hr
    obtain ⟨msg, hmsg⟩ := horacle r hr
    exact part1 now cache oracle r msg hmsg (hfind r hr)
  refine ⟨?_, ?_, ?_⟩
  · exact flatMap_eq_nil_of_mem _ _
      (fun r hr => by rw [hone r (List.mem_of_mem_filter hr)])
  · show (results.filter (needsEnhance validUrl)).flatMap
        (fun r => (enhanceOne now cache oracle r).2.1) ++ cache = cache
    rw [flatMap_eq_nil_of_mem _ _
      (fun r hr => by rw [hone r (List.mem_of_mem_filter hr)]), List.nil_append]
  · exact map_id_of_mem _ _ (fun r hr => by
      by_cases hn : needsEnhance validUrl r = true
      · rw [if_pos hn, hone r hr]
      · rw [if_neg hn])

/-- Witness for C8: a failing fetch on an empty cache emits nothing and
leaves the result unchanged. -/
theorem enrichment_errors_swallowed_witness :
    enhanceOne 0 [] (fun _ => Except.error "network error")
      ⟨"Item", "https://x.com/p", "", "x.com", ⟨0, .UNKNOWN⟩, "", false⟩ =
      ([], [], ⟨"Item", "https://x.com/p", "", "x.com", ⟨0, .UNKNOWN⟩, "", false⟩) :=
  enrichment_errors_swallowed.1 0 [] (fun _ => Except.error "network error")
    ⟨"Item", "https://x.com/p", "", "x.com", ⟨0, .UNKNOWN⟩, "", false⟩
    "network error" rfl rfl

theorem enhanceFetch_events_url (now : ℕ) (oracle : String → Except String Metadata)
    (r : SearchResult) :
    ∀ ev ∈ (enhanceFetch now oracle r).1, ev.url = r.url := by
  intro ev hev
  rcases horacle : oracle r.url with msg | m
  · rw [enhanceFetch_error now oracle r msg horacle] at hev
    simp at hev
  · rw [enhanceFetch_ok now oracle r m horacle] at hev
    by_cases hu : hasUsefulData m = true
    · rw [if_pos hu] at hev
      simp only [List.mem_singleton] at hev
      rw [hev]
    · rw [if_neg hu] at hev
      simp at hev

theorem enhanceOne_events_url (now : ℕ) (cache : Cache)
    (oracle : String → Except String Metadata) (r : SearchResult)
    (hconsist : ∀ e ∈ cache, e.2.data.url = e.1) :
    ∀ ev ∈ (enhanceOne now cache oracle r).1, ev.url = r.url := by
  intro ev hev
  rcases hfind : List.find? (fun en => en.1 == r.url) cache with _ | e
  · rw [enhanceOne_missing now cache oracle r hfind] at hev
    exact enhanceFetch_events_url now oracle r ev hev
  · rw [enhanceOne_found now cache oracle r e hfind] at hev
    by_cases hfresh : now - e.2.timestamp < CACHE_DURATION
    · rw [if_pos hfresh] at hev
      simp only [List.mem_singleton] at hev
      rw [hev]
      show e.2.data.url = r.url
      have hkey : e.1 = r.url := by
        have := List.find?_some hfind
        simpa using this
      rw [hconsist e (List.mem_of_find?_eq_some hfind), hkey]
    · rw [if_neg hfresh] at hev
      exact enhanceFetch_events_url now oracle r ev hev

theorem enhanceFetch_events_len (now : ℕ) (oracle : String → Except String Metadata)
    (r : SearchResult) : (enhanceFetch now oracle r).1.length ≤ 1 := by
  rcases horacle : oracle r.url with msg | m
  · rw [enhanceFetch_error now oracle r msg horacle]
    simp
  · rw [enhanceFetch_ok now oracle r m horacle]
    by_cases hu : hasUsefulData m = true
    · rw [if_pos hu]
      simp
    · rw [if_neg hu]
      simp

theorem enhanceOne_events_len (now : ℕ) (cache : Cache)
    (oracle : String → Except String Metadata) (r : SearchResult) :
    (enhanceOne now cache oracle r).1.length ≤ 1 := by
  rcases hfind : List.find? (fun en => en.1 == r.url) cache with _ | e
  · rw [enhanceOne_missing now cache oracle r hfind]
    exact enhanceFetch_events_len now oracle r
  · rw [enhanceOne_found now cache oracle r e hfind]
    by_cases hfresh : now - e.2.timestamp < CACHE_DURATION
    · rw [if_pos hfresh]
      simp
    · rw [if_neg hfresh]
      exact enhanceFetch_events_len now oracle r

theorem enhanceFetch_events_useful (now : ℕ) (oracle : String → Except String Metadata)
    (r : SearchResult) :
    ∀ ev ∈ (enhanceFetch now oracle r).1, 0 < ev.price.amount ∨ ev.image ≠ "" := by
  intro ev hev
  rcases horacle : oracle r.url with msg | m
  · rw [enhanceFetch_error now oracle r msg horacle] at hev
    simp at hev
  · rw [enhanceFetch_ok now oracle r m horacle] at hev
    by_cases hu : hasUsefulData m = true
    · rw [if_pos hu] at hev
      simp only [List.mem_singleton] at hev
      rcases ((hasUsefulData_iff m).mp hu).2.2.2.2 with hpos | himg
      · left
        rw [hev]
        show (if m.price.amount ≠ 0 then m.price else r.price).amount > 0
        rw [if_pos (ne_of_gt hpos)]
        exact hpos
      · right
        rw [hev]
        show (if m.image ≠ "" then m.image else r.image) ≠ ""
        rw [if_pos himg]
        exact himg
    · rw [if_neg hu] at hev
      simp at hev

theorem enhanceOne_events_useful (now : ℕ) (cache : Cache)
    (oracle : String → Except String Metadata) (r : SearchResult)
    (huseful : cacheUseful cache) :
    ∀ ev ∈ (enhanceOne now cache oracle r).1, 0 < ev.price.amount ∨ ev.image ≠ "" := by
  intro ev hev
  rcases hfind : List.find? (fun en => en.1 == r.url) cache with _ | e
  · rw [enhanceOne_missing now cache oracle r hfind] at hev
    exact enhanceFetch_events_useful now oracle r ev hev
  · rw [enhanceOne_found now cache oracle r e hfind] at hev
    by_cases hfresh : now - e.2.timestamp < CACHE_DURATION
    · rw [if_pos hfresh] at hev
      simp only [List.mem_singleton] at hev
      rw [hev]
      exact (huseful e (List.mem_of_find?_eq_some hfind)).2.2.2.2
    · rw [if_neg hfresh] at hev
      exact enhanceFetch_events_useful now oracle r ev hev

theorem countP_url_le_one (u : String) (results : List SearchResult)
    (hp : results.Pairwise (fun a b => a.url ≠ b.url)) :
    results.countP (fun e => e.url == u) ≤ 1 := by
  induction results with
  | nil => simp
  | cons r rs ih =>
    obtain ⟨hhead, htail⟩ := List.pairwise_cons.mp hp
    rw [List.countP_cons]
    by_cases hru : r.url = u
    · have h0 : rs.countP (fun e => e.url == u) = 0 := by
        rw [List.countP_eq_zero]
        intro x hx
        simp only [beq_iff_eq]
        intro hxu
        exact hhead x hx (by rw [hru, hxu])
      rw [h0]
      simp [hru]
    · have hne : (r.url == u) = false := by simp [hru]
      rw [hne]
      simpa using ih htail

theorem countP_flatMap_le_one (u : String) (f : SearchResult → List SearchResult)
    (items : List SearchResult)
    (hp : items.Pairwise (fun a b => a.url ≠ b.url))
    (hurl : ∀ r ∈ items, ∀ ev ∈ f r, ev.url = r.url)
    (hlen : ∀ r ∈ items, (f r).length ≤ 1) :
    (items.flatMap f).countP (fun e => e.url == u) ≤ 1 := by
  induction items with
  | nil => simp
  | cons r rs ih =>
    obtain ⟨hhead, htail⟩ := List.pairwise_cons.mp hp
    rw [List.flatMap_cons, List.countP_append]
    by_cases hru : r.url = u
    · have htail0 : (rs.flatMap f).countP (fun e => e.url == u) = 0 := by
        rw [List.countP_eq_zero]
        intro ev hev
        rcases List.mem_flatMap.mp hev with ⟨x, hx, hevx⟩
        simp only [beq_iff_eq]
        intro hevu
        exact hhead x hx (by
          rw [hru, ← hevu, hurl x (by simp [hx]) ev hevx])
      have hheadle : (f r).countP (fun e => e.url == u) ≤ 1 :=
        le_trans (List.countP_le_length _) (hlen r (by simp))
      omega
    · have hhead0 : (f r).countP (fun e => e.url == u) = 0 := by
        rw [List.countP_eq_zero]
        intro ev hev
        simp only [beq_iff_eq]
        intro hevu
        exact hru (by rw [← hurl r (by simp) ev hev, hevu])
      rw [hhead0, Nat.zero_add]
      exact ih htail (fun x hx => hurl x (by simp [hx]))
        (fun x hx => hlen x (by simp [hx]))

/-- C7: with pairwise-distinct result URLs (guaranteed by step 4's
deduplication), a cache whose entries are stored under their own URL and
contain only useful data, `onProgress` fires at most twice per URL — at most
once in the initial emission and at most once during enrichment — and every
enrichment emission already satisfies `0 < price.amount ∨ image ≠ ""`; in
particular the second invocation for a URL whose first invocation had a zero
amount and empty image satisfies it. -/
theorem searchItems_progress_at_most_twice
    (now : ℕ) (cache : Cache) (oracle : String → Except String Metadata)
    (validUrl : String → Bool) (results : List SearchResult)
    (hdist : results.Pairwise (fun a b => a.url ≠ b.url))
    (hconsist : ∀ e ∈ cache, e.2.data.url = e.1)
    (huseful : cacheUseful cache) :
    (∀ u : String,
      (searchEvents now cache oracle validUrl results).countP
        (fun e => e.url == u) ≤ 2) ∧
    (∀ u : String, results.countP (fun e => e.url == u) ≤ 1) ∧
    (∀ ev ∈ (enhanceResults now cache oracle validUrl results).1,
      0 < ev.price.amount ∨ ev.image ≠ "") := by
  have hfilter : (results.filter (needsEnhance validUrl)).Pairwise
      (fun a b => a.url ≠ b.url) :=
    hdist.sublist (List.filter_sublist results)
  refine ⟨?_, fun u => countP_url_le_one u results hdist, ?_⟩
  · intro u
    have hev : (enhanceResults now cache oracle validUrl results).1 =
        (results.filter (needsEnhance validUrl)).flatMap
          (fun r => (enhanceOne now cache oracle r).1) := rfl
    unfold searchEvents
    rw [List.countP_append, hev]
    have h1 := countP_url_le_one u results hdist
    have h2 := countP_flatMap_le_one u (fun r => (enhanceOne now cache oracle r).1)
      (results.filter (needsEnhance validUrl)) hfilter
      (fun r _ => enhanceOne_events_url now cache oracle r hconsist)
      (fun r _ => enhanceOne_events_len now cache oracle r)
    omega
  · intro ev hev
    unfold enhanceResults at hev
    rcases List.mem_flatMap.mp hev with ⟨r, _, hevr⟩
    exact enhanceOne_events_useful now cache oracle r huseful ev hevr

/-- Witness for C7: the per-URL event bound applied to a concrete
one-result search with a failing enrichment fetch. -/
theorem searchItems_progress_at_most_twice_witness :
    (searchEvents 0 [] (fun _ => Except.error "network") (fun _ => true)
      [⟨"Item", "https://x.com/p", "", "x.com", ⟨0, .UNKNOWN⟩, "", false⟩]).countP
      (fun e => e.url == "https://x.com/p") ≤ 2 :=
  (searchItems_progress_at_most_twice 0 [] (fun _ => Except.error "network")
    (fun _ => true) [⟨"Item", "https://x.com/p", "", "x.com", ⟨0, .UNKNOWN⟩, "", false⟩]
    (by simp)
    (fun e he => absurd he (List.not_mem_nil e))
    (fun e he => absurd he (List.not_mem_nil e))).1 "https://x.com/p"

/-! ## Proxy-Racing Fetcher (`fetchMetadata` / `tryProxy` / `fetchWithTimeout`,
metadata.ts lines 354-369, 400-405, 470-538) -/

/-- `corsProxies`: the three proxy URL builders; `encodeURIComponent` is
modelled as the identity on the target URL. -/
def corsProxies : List (String → String) :=
  [fun url => "https://corsproxy.io/?" ++ url,
   fun url => "https://api.allorigins.win/raw?url=" ++ url,
   fun url => "https://api.codetabs.com/v1/proxy?quest=" ++ url]

/-- A `fetch` invocation together with the abort signals wired into it. -/
structure FetchCall where
  url : String
  timeoutMs : ℕ
  abortSignals : List String
  deriving DecidableEq, Repr

/-- `fetchWithTimeout(url, timeout)` of the proxy-racing iteration: it
creates its own timeout `AbortController` and passes only that controller's
signal to `fetch`; this iteration's `fetchWithTimeout` has no parameter for
an external signal. -/
def fetchWithTimeoutCall (url : String) (timeout : ℕ) : FetchCall :=
  ⟨url, timeout, ["timeout-controller"]⟩

/-- `tryProxy(proxyUrl, proxyName)` issues `fetchWithTimeout(proxyUrl, 15000)`. -/
def tryProxyCall (proxyUrl : String) : FetchCall :=
  fetchWithTimeoutCall proxyUrl 15000

/-- The fetch calls issued by `fetchMetadata`'s race for a target URL: one
`tryProxy` per `corsProxies` entry.  The `controllers` array that
`fetchMetadata` creates (and aborts after a winner) is never threaded into
these calls — `tryProxy` receives only the proxy URL and name. -/
def raceFetchCalls (url : String) : List FetchCall :=
  corsProxies.map (fun proxyFn => tryProxyCall (proxyFn url))

/-- `tryProxy`'s success check on a settled response: HTTP error or a body
shorter than 100 characters rejects, otherwise the HTML is the value. -/
def tryProxyResult (respOk : Bool) (status : ℕ) (html : String) :
    Except String String :=
  if !respOk then .error ("HTTP " ++ toString status)
  else if html.length < 100 then .error "Empty or invalid response"
  else .ok html

/-- `Promise.any`: settles with the value of the earliest fulfilled promise
(each promise given by its finish time and outcome; the earlier index wins a
tie), or rejects with the `AggregateError` collecting every reason when none
fulfils. -/
def promiseAny (ps : List (ℕ × Except String String)) :
    Except (List String) String :=
  match ps.foldl (fun best p =>
      match p.2 with
      | .ok v =>
        match best with
        | none => some (p.1, v)
        | some b => if p.1 < b.1 then some (p.1, v) else some b
      | .error _ => best) none with
  | some b => .ok b.2
  | none => .error (ps.filterMap (fun p =>
      match p.2 with
      | .error e => some e
      | .ok _ => none))

/-- A 120-character proxy response body. -/
def proxyStubBody (c : Char) : String :=
  ⟨List.replicate 120 c⟩

set_option maxRecDepth 8192 in
/-- C4, at the claim's failing input: with three proxy stubs where the 2nd
settles fastest and successfully, the race does return the 2nd's body — but
every proxy fetch is wired only to its own timeout controller, so the
`controllers` that `fetchMetadata` aborts once the winner is chosen are
connected to nothing: the losing requests never observe the cancellation the
claim (and the code's own comment) promises. -/
theorem proxy_race_returns_winner_but_cancels_nothing :
    promiseAny
      [(30, tryProxyResult true 200 (proxyStubBody 'a')),
       (10, tryProxyResult true 200 (proxyStubBody 'b')),
       (20, tryProxyResult true 200 (proxyStubBody 'c'))] =
      .ok (proxyStubBody 'b') ∧
    (raceFetchCalls "https://example.com/item").map FetchCall.abortSignals =
      [["timeout-controller"], ["timeout-controller"], ["timeout-controller"]] := by
  constructor
  · rfl
  · rfl

/-! ## Metadata Resolver (`fetchMetadata`, metadata.ts lines 489-538) -/

/-- An ASCII whitespace character stripped by `String.prototype.trim` (the
only whitespace occurring in this pipeline's URLs). -/
def isJsSpace (c : Char) : Bool :=
  c = ' ' || c = '\t' || c = '\n' || c = '\r'

/-- `String.prototype.trim`. -/
def trimS (s : String) : String :=
  ⟨((s.data.dropWhile isJsSpace).reverse.dropWhile isJsSpace).reverse⟩

/-- The scheme test `/^https?:\/\//i`. -/
def isHttpScheme (s : String) : Bool :=
  isPrefixL "http://".data (toLowerS s).data ||
    isPrefixL "https://".data (toLowerS s).data

/-- The URL normalisation at the top of `fetchMetadata`: trim, then prepend
`https://` unless an http(s) scheme is already present. -/
def normalizeFetchUrl (url : String) : String :=
  if isHttpScheme (trimS url) then trimS url else "https://" ++ trimS url

/-- Control-flow model of the racing `fetchMetadata`.  `urlValid` is the
outcome of the platform URL parser (`new URL(urlToFetch)`); `raceOutcome`
the settled outcome of `Promise.any` over the proxy attempts
(`Except.error` carries the per-proxy reasons of the `AggregateError`);
`parseHtml` the outcome of `parseMetadataFromHtml` on the winning HTML and
the normalised URL (`Except.error` is its thrown condition, e.g. the
missing-title error). -/
def fetchMetadataE (url : String) (urlValid : Bool)
    (raceOutcome : Except (List String) String)
    (parseHtml : String → String → Except String Metadata) :
    Except String Metadata :=
  if !urlValid then .error "Invalid URL format"
  else
    match raceOutcome with
    | .ok html =>
      match parseHtml html (normalizeFetchUrl url) with
      | .ok m => .ok m
      | .error _ => .error "Could not fetch item details from this URL"
    | .error _ => .error "Could not fetch item details. All proxies failed."

/-- C5 counterexample: when every proxy times out, the caller receives the
message `"Could not fetch item details. All proxies failed."` — not the
single generic `"Could not fetch item details from this URL"` condition the
claim asserts for all failures, so the caller CAN tell all-proxies-down
apart from the other failures. -/
theorem resolve_two_distinct_generic_errors :
    fetchMetadataE "https://example.com/item" true
      (.error ["Request timed out after 15000ms", "Request timed out after 15000ms",
        "Request timed out after 15000ms"])
      (fun _ _ => .error "unreached") =
      .error "Could not fetch item details. All proxies failed." ∧
    "Could not fetch item details. All proxies failed." ≠
      "Could not fetch item details from this URL" := by
  constructor
  · rfl
  · decide

/-- C5 (amended): `fetchMetadata` normalizes its URL by prepending
`https://` exactly when the trimmed input lacks an http(s) scheme, rejects
malformed URLs fast with `"Invalid URL format"` regardless of any fetch
outcome, and wraps every downstream fetch or extract failure into one of two
generic conditions — `"Could not fetch item details. All proxies failed."`
when every proxy failed, `"Could not fetch item details from this URL"`
otherwise — so the caller never sees a per-proxy exception, though it can
distinguish all-proxies-down from the other failures. -/
theorem resolve_normalizes_and_wraps_errors :
    (∀ url : String, isHttpScheme (trimS url) = false →
      normalizeFetchUrl url = "https://" ++ trimS url) ∧
    (∀ url : String, isHttpScheme (trimS url) = true →
      normalizeFetchUrl url = trimS url) ∧
    (∀ (url : String) (race : Except (List String) String)
        (parseHtml : String → String → Except String Metadata),
      fetchMetadataE url false race parseHtml = .error "Invalid URL format") ∧
    (∀ (url : String) (race : Except (List String) String)
        (parseHtml : String → String → Except String Metadata) (msg : String),
      fetchMetadataE url true race parseHtml = .error msg →
      msg = "Could not fetch item details from this URL" ∨
        msg = "Could not fetch item details. All proxies failed.") ∧
    (∀ (url : String) (parseHtml : String → String → Except String Metadata)
        (errs : List String),
      fetchMetadataE url true (.error errs) parseHtml =
        .error "Could not fetch item details. All proxies failed.") := by
  refine ⟨?_, ?_, ?_, ?_, ?_⟩
  · intro url h
    unfold normalizeFetchUrl
    rw [h]
    rfl
  · intro url h
    unfold normalizeFetchUrl
    rw [h]
    rfl
  · intro url race parseHtml
    rfl
  · intro url race parseHtml msg h
    rcases race with errs | html
    · right
      have h2 : (Except.error "Could not fetch item details. All proxies failed." :
          Except String Metadata) = .error msg := h
      have h3 : "Could not fetch item details. All proxies failed." = msg := by
        simpa using h2
      exact h3.symm
    · have h2 : (match parseHtml html (normalizeFetchUrl url) with
          | Except.ok m => (Except.ok m : Except String Metadata)
          | Except.error _ =>
            Except.error "Could not fetch item details from this URL") =
          Except.error msg := h
      rcases hparse : parseHtml html (normalizeFetchUrl url) with e | m <;>
        rw [hparse] at h2
      · left
        have h3 : "Could not fetch item details from this URL" = msg := by
          simpa using h2
        exact h3.symm
      · simp at h2
  · intro url parseHtml errs
    rfl

/-- Witness for C5 (amended): the scheme-prepending law at a concrete
schemeless URL, and the error dichotomy at a concrete extract failure. -/
theorem resolve_normalizes_and_wraps_errors_witness :
    normalizeFetchUrl "example.com/item" = "https://" ++ trimS "example.com/item" ∧
    ("Could not fetch item details from this URL" =
        "Could not fetch item details from this URL" ∨
      "Could not fetch item details from this URL" =
        "Could not fetch item details. All proxies failed.") :=
  ⟨by
    have h := resolve_normalizes_and_wraps_errors.1 "example.com/item" (by decide)
    exact h,
   resolve_normalizes_and_wraps_errors.2.2.2.1 "https://example.com/item"
    (.ok "<html></html>") (fun _ _ => .error "Could not extract title from page")
    "Could not fetch item details from this URL" rfl⟩

end Wishlist
